import Mathlib

/-!
Verification development for the mosdef_workshop repository (mBuild and
Foyer tutorial notebooks).

The repository consists of notebook glue code calling two external
libraries.  The specification describes, as the hypothetical hard core,
a rule-based atomtyping engine (Rule Loader, Pattern Matcher, Typing
Resolver).  That engine is not part of the repository sources, so its
components are modelled here from the specification text.  The notebook
class constructors (CH2, Hydrogen, Butane, Alkane) are embedded from the
notebook source cells.
-/

/-- Modelled from the spec: an atom of the molecular graph (data model
section); element label, unique identifier, bonded neighbor identifiers.
The molecule input itself is produced by an external structure loader
that is out of scope. -/
structure Atom where
  id : Nat
  element : String
  neighbors : List Nat
deriving DecidableEq

/-- Modelled from the spec: a molecule is a set of atoms plus the bond
relation, carried here through the per-atom neighbor lists. -/
structure Molecule where
  atoms : List Atom
deriving DecidableEq

/-- Look an atom up by identifier. -/
def molFind (m : Molecule) (aid : Nat) : Option Atom :=
  m.atoms.find? (fun a => a.id == aid)

/-- Modelled from the spec: a pattern is a small rooted tree where each
node carries a label constraint, a required neighbor-degree constraint,
and child sub-patterns (Pattern Matcher section). -/
inductive Pattern where
  | node (label : Option String) (degree : Option Nat) (children : List Pattern)

/-- The local constraints of one pattern node against one atom: the
element-label constraint and the neighbor-count (degree) constraint. -/
def nodeOk (a : Atom) (lbl : Option String) (deg : Option Nat) : Bool :=
  (match lbl with | none => true | some s => a.element == s) &&
  (match deg with | none => true | some d => a.neighbors.length == d)

mutual
/-- Modelled from the spec: depth-first backtracking search of the
Pattern Matcher.  Given a pattern node, the atom it is tentatively
assigned to and the list of already-used atom identifiers, return the
list of possible used-identifier lists after matching the whole subtree
(empty list of results means the subtree cannot be matched there). -/
def matchSub (m : Molecule) : Pattern → Nat → List Nat → List (List Nat)
  | Pattern.node lbl deg children, aid, used =>
    match molFind m aid with
    | none => []
    | some a =>
      if nodeOk a lbl deg then matchKids m a.neighbors children (aid :: used) else []

/-- Modelled from the spec: assign each child pattern to a distinct,
not-yet-used bonded neighbor of the parent atom, backtracking over all
choices. -/
def matchKids (m : Molecule) (nbrs : List Nat) : List Pattern → List Nat → List (List Nat)
  | [], used => [used]
  | c :: cs, used =>
    (nbrs.filter (fun n => decide (¬ n ∈ used))).flatMap (fun n =>
      (matchSub m c n used).flatMap (fun used2 => matchKids m nbrs cs used2))
end

/-- Modelled from the spec: the Pattern Matcher verdict — existential,
true when some injective assignment rooted at the anchor succeeds. -/
def smatch (m : Molecule) (p : Pattern) (anchor : Nat) : Bool :=
  !(matchSub m p anchor []).isEmpty

/-- An assignment tree: the same shape as a pattern tree, with the
molecule atom identifier each pattern node is assigned to. -/
inductive Assign where
  | node (atom : Nat) (children : List Assign)

/-- The atom assigned to the root of an assignment tree. -/
def Assign.root : Assign → Nat
  | Assign.node a _ => a

mutual
/-- All atom identifiers appearing in an assignment tree. -/
def Assign.atoms : Assign → List Nat
  | Assign.node a ts => a :: atomsList ts

/-- All atom identifiers appearing in a list of assignment trees. -/
def atomsList : List Assign → List Nat
  | [] => []
  | t :: ts => Assign.atoms t ++ atomsList ts
end

mutual
/-- Declarative reading of the matching condition of the spec: the assignment
tree has the shape of the pattern, every assigned atom exists and
satisfies its local constraints, and every child is assigned to a bonded
neighbor of the atom assigned to its parent.  (Injectivity is stated
separately as Nodup of the assigned atoms.) -/
def assignOk (m : Molecule) : Pattern → Assign → Bool
  | Pattern.node lbl deg children, Assign.node a ts =>
    match molFind m a with
    | none => false
    | some atom => nodeOk atom lbl deg && assignOkList m atom.neighbors children ts

/-- Child-wise condition for `assignOk`: the child trees match the child
patterns one for one, each rooted at some bonded neighbor of the parent. -/
def assignOkList (m : Molecule) (nbrs : List Nat) : List Pattern → List Assign → Bool
  | [], [] => true
  | c :: cs, t :: ts =>
    decide (t.root ∈ nbrs) && assignOk m c t && assignOkList m nbrs cs ts
  | _, _ => false
end

/-- Modelled from the spec: a typed rule of the forcefield — unique name,
pattern, optional description and citation, override-target names. -/
structure Rule where
  name : String
  pattern : Pattern
  desc : Option String
  doi : Option String
  overrides : List String

/-- Whether the rule named `d` declares an override of the name `c`
within the given rule set. -/
def ruleOverrides (rules : List Rule) (d c : String) : Bool :=
  rules.any (fun r => r.name == d && r.overrides.contains c)

/-- Whether the candidate `c` can currently be removed: some other
still-present candidate overrides it. -/
def removableIn (rules : List Rule) (cands : List String) (c : String) : Bool :=
  cands.any (fun d => d != c && ruleOverrides rules d c)

/-- The first removable candidate, if any. -/
def findRemovable (rules : List Rule) (cands : List String) : Option String :=
  cands.find? (removableIn rules cands)

/-- Modelled from the spec: the override fixed-point iteration —
repeatedly remove a candidate overridden by another still-present
candidate until no removal applies.  The fuel argument bounds the number
of removals; each removal deletes one element. -/
def overrideFilterAux (rules : List Rule) : Nat → List String → List String
  | 0, cands => cands
  | Nat.succ fuel, cands =>
    match findRemovable rules cands with
    | none => cands
    | some c => overrideFilterAux rules fuel (cands.erase c)

/-- Modelled from the spec: override fixed-point filtering of a
candidate set.  A fuel of the candidate count suffices, since every
removal strictly shrinks the list. -/
def overrideFilter (rules : List Rule) (cands : List String) : List String :=
  overrideFilterAux rules cands.length cands

/-- Modelled from the spec: terminal per-atom state of the Typing
Resolver: resolved to a single rule name, or unresolved with a reason
and the surviving candidate names for diagnostics. -/
inductive AtomResult where
  | resolved (name : String)
  | unresolved (reason : String) (candidates : List String)
deriving DecidableEq

/-- Modelled from the spec: the Candidates set of an atom — the names of
all loaded rules whose pattern matches anchored at that atom. -/
def candidatesOf (rules : List Rule) (m : Molecule) (aid : Nat) : List String :=
  (rules.filter (fun r => smatch m r.pattern aid)).map Rule.name

/-- Modelled from the spec: per-atom resolution — empty Candidates gives
"no matching atomtype"; otherwise override filtering runs, a unique
survivor resolves the atom, several survivors give "ambiguous atomtype". -/
def resolveAtom (rules : List Rule) (m : Molecule) (aid : Nat) : AtomResult :=
  match candidatesOf rules m aid with
  | [] => AtomResult.unresolved "no matching atomtype" []
  | c :: cs =>
    match overrideFilter rules (c :: cs) with
    | [x] => AtomResult.resolved x
    | surv => AtomResult.unresolved "ambiguous atomtype" surv

/-- Modelled from the spec: whole-molecule typing outcome — the complete
TypeAssignment, or TypingIncomplete listing every unresolved atom
identifier with its reason. -/
inductive TypingResult where
  | complete (assignment : List (Nat × String))
  | incomplete (failures : List (Nat × String))
deriving DecidableEq

/-- Resolve every atom of the given evaluation order. -/
def resolveOrder (rules : List Rule) (m : Molecule) (order : List Atom) :
    List (Nat × AtomResult) :=
  order.map (fun a => (a.id, resolveAtom rules m a.id))

/-- Collect the identifiers and reasons of all unresolved atoms. -/
def failuresOf (results : List (Nat × AtomResult)) : List (Nat × String) :=
  results.filterMap (fun p =>
    match p.2 with
    | AtomResult.unresolved reason _ => some (p.1, reason)
    | AtomResult.resolved _ => none)

/-- Collect the assignment of all resolved atoms. -/
def assignmentOf (results : List (Nat × AtomResult)) : List (Nat × String) :=
  results.filterMap (fun p =>
    match p.2 with
    | AtomResult.resolved n => some (p.1, n)
    | AtomResult.unresolved _ _ => none)

/-- Modelled from the spec: the Typing Resolver over an explicit atom
evaluation order; failures are accumulated, never raised individually. -/
def typeMoleculeOrder (rules : List Rule) (m : Molecule) (order : List Atom) :
    TypingResult :=
  let results := resolveOrder rules m order
  match failuresOf results with
  | [] => TypingResult.complete (assignmentOf results)
  | f :: fs => TypingResult.incomplete (f :: fs)

/-- Modelled from the spec: whole-molecule typing in the own atom order
of the molecule. -/
def typeMolecule (rules : List Rule) (m : Molecule) : TypingResult :=
  typeMoleculeOrder rules m m.atoms

/-- Two typing results agree up to reordering: same constructor, and the
payload lists are permutations of one another (equal as mappings). -/
def resultsPerm : TypingResult → TypingResult → Prop
  | TypingResult.complete a1, TypingResult.complete a2 => a1.Perm a2
  | TypingResult.incomplete f1, TypingResult.incomplete f2 => f1.Perm f2
  | _, _ => False

/-- Modelled from the spec: one record of the atom-type section of the
forcefield document: optional name and pattern (both required for a valid
record), optional description and citation, override names. -/
structure RawRecord where
  name : Option String
  pdef : Option Pattern
  desc : Option String
  doi : Option String
  overrides : List String

/-- Modelled from the spec: the Rule Loader error taxonomy — structural
problems in the forcefield document. -/
inductive LoadError where
  | malformedDocument
deriving DecidableEq

/-- Turn one record into a rule; a missing name or pattern is a
malformed document. -/
def recordToRule (rc : RawRecord) : Except LoadError Rule :=
  match rc.name, rc.pdef with
  | some n, some p => Except.ok ⟨n, p, rc.desc, rc.doi, rc.overrides⟩
  | _, _ => Except.error LoadError.malformedDocument

/-- Load every record in document order, aborting on the first malformed
record. -/
def loadAll : List RawRecord → Except LoadError (List Rule)
  | [] => Except.ok []
  | rc :: rcs =>
    match recordToRule rc with
    | Except.error e => Except.error e
    | Except.ok rule =>
      match loadAll rcs with
      | Except.error e => Except.error e
      | Except.ok rules => Except.ok (rule :: rules)

/-- Whether some loaded rule declares an override of a name that is not
present among the loaded rules. -/
def danglingOverride (rules : List Rule) : Bool :=
  rules.any (fun r =>
    r.overrides.any (fun o => decide (¬ o ∈ rules.map Rule.name)))

/-- Modelled from the spec: the Rule Loader — a pure parse of the
forcefield document that fails with MalformedDocument on a missing name
or pattern, a duplicate name, or a dangling override reference (checked
after the full document is loaded), and otherwise returns the rule set
keyed by name. -/
def loadRules (doc : List RawRecord) : Except LoadError (List Rule) :=
  match loadAll doc with
  | Except.error e => Except.error e
  | Except.ok rules =>
    if (rules.map Rule.name).Nodup then
      if danglingOverride rules then Except.error LoadError.malformedDocument
      else Except.ok rules
    else Except.error LoadError.malformedDocument

/-- Embedding of the state built by the notebook construction cells: a
flat record of created particles (identifier and name), created bonds,
labels given to added sub-compounds, and the trace of construction
operations in the order they were performed.  The external mBuild
primitives (Particle, add, add_bond, force_overlap, Port) are modelled
by their effect on this state; geometry is out of scope. -/
structure MBState where
  nextId : Nat
  parts : List (Nat × String)
  bonds : List (Nat × Nat)
  labels : List String
  ops : List String
deriving DecidableEq

/-- Particle creation followed by add: one new particle of the given name. -/
def particleNew (s : MBState) (nm : String) : MBState × Nat :=
  (⟨s.nextId + 1, s.parts ++ [(s.nextId, nm)], s.bonds, s.labels,
    s.ops ++ ["Particle " ++ nm]⟩, s.nextId)

/-- The add_bond operation between two particles. -/
def addBond (s : MBState) (a b : Nat) : MBState :=
  ⟨s.nextId, s.parts, s.bonds ++ [(a, b)], s.labels, s.ops ++ ["add_bond"]⟩

/-- Embedding of the notebook class Hydrogen: one particle named H with
an up port anchored at it.  Returns the new state and the port anchor. -/
def hydrogenNew (s : MBState) : MBState × Nat :=
  (⟨s.nextId + 1, s.parts ++ [(s.nextId, "H")], s.bonds, s.labels,
    s.ops ++ ["Hydrogen"]⟩, s.nextId)

/-- Embedding of the notebook port-based class CH2 (loaded from
ch2.pdb: one carbon, two hydrogens, two C-H bonds) with up and down
ports anchored at the carbon.  Returns the new state and the carbon
identifier, the anchor of both ports. -/
def ch2New (s : MBState) : MBState × Nat :=
  (⟨s.nextId + 3,
    s.parts ++ [(s.nextId, "C"), (s.nextId + 1, "H"), (s.nextId + 2, "H")],
    s.bonds ++ [(s.nextId, s.nextId + 1), (s.nextId, s.nextId + 2)],
    s.labels, s.ops ++ ["CH2"]⟩, s.nextId)

/-- The force_overlap operation: creates a bond between the anchors of the two
ports being overlapped (the rigid-body move itself is geometry, out of
scope). -/
def forceOverlap (s : MBState) (fromAnchor toAnchor : Nat) : MBState :=
  ⟨s.nextId, s.parts, s.bonds ++ [(fromAnchor, toAnchor)], s.labels,
    s.ops ++ ["force_overlap"]⟩

/-- The add operation with a label. -/
def addLabel (s : MBState) (lbl : String) : MBState :=
  ⟨s.nextId, s.parts, s.bonds, s.labels ++ [lbl], s.ops ++ ["add " ++ lbl]⟩

/-- The loop of Butane.init: attach three further CH2 units, each
overlapped up-onto-down of the previous unit and labelled ch2[$]. -/
def butaneLoop : Nat → MBState × Nat → MBState × Nat
  | 0, sl => sl
  | Nat.succ k, (s, last) =>
    let (s1, cur) := ch2New s
    let s2 := forceOverlap s1 cur last
    let s3 := addLabel s2 "ch2[$]"
    butaneLoop k (s3, cur)

/-- Embedding of Butane.init from the notebook: a Hydrogen cap
overlapped onto the up port of the first CH2, three further CH2 units
in a loop, then a final Hydrogen cap on the down port of the last unit. -/
def butaneBuild : MBState :=
  let s0 : MBState := ⟨0, [], [], [], []⟩
  let (s1, h) := hydrogenNew s0
  let (s2, c) := ch2New s1
  let s3 := forceOverlap s2 h c
  let s4 := addLabel s3 "ch2[$]"
  let s5 := addLabel s4 "up-cap"
  let (s6, last) := butaneLoop 3 (s5, c)
  let (s7, h2) := hydrogenNew s6
  let s8 := forceOverlap s7 h2 last
  addLabel s8 "down-cap"

/-- The loop of Alkane.init: attach chain_length - 1 further CH2 units,
each overlapped up-onto-down of the previous unit and labelled ch2[$]. -/
def alkaneLoop : Nat → MBState × Nat → MBState × Nat
  | 0, sl => sl
  | Nat.succ k, (s, last) =>
    let (s1, cur) := ch2New s
    let s2 := forceOverlap s1 cur last
    let s3 := addLabel s2 "ch2[$]"
    alkaneLoop k (s3, cur)

/-- Embedding of Alkane.init from the notebook: identical construction
sequence with the loop running chain_length - 1 times. -/
def alkaneBuild (chainLength : Nat) : MBState :=
  let s0 : MBState := ⟨0, [], [], [], []⟩
  let (s1, h) := hydrogenNew s0
  let (s2, c) := ch2New s1
  let s3 := forceOverlap s2 h c
  let s4 := addLabel s3 "ch2[$]"
  let s5 := addLabel s4 "up-cap"
  let (s6, last) := alkaneLoop (chainLength - 1) (s5, c)
  let (s7, h2) := hydrogenNew s6
  let s8 := forceOverlap s7 h2 last
  addLabel s8 "down-cap"

/-- Embedding of the bond-based CH2 construction from the notebook: three
particles C, H, H added to an empty compound, then add_bond of the
carbon to each hydrogen. -/
def ch2BondBased : MBState :=
  let s0 : MBState := ⟨0, [], [], [], []⟩
  let (s1, carbon) := particleNew s0 "C"
  let (s2, hydrogen) := particleNew s1 "H"
  let (s3, hydrogen2) := particleNew s2 "H"
  let s4 := addBond s3 carbon hydrogen
  addBond s4 carbon hydrogen2

/-- Name of the particle with the given identifier, if present. -/
def mbName (s : MBState) (i : Nat) : Option String :=
  (s.parts.find? (fun p => p.1 == i)).map Prod.snd

/-- Methane: one carbon bonded to four distinct hydrogens. -/
def ch4 : Molecule :=
  ⟨[⟨0, "C", [1, 2, 3, 4]⟩, ⟨1, "H", [0]⟩, ⟨2, "H", [0]⟩,
    ⟨3, "H", [0]⟩, ⟨4, "H", [0]⟩]⟩

/-- A single isolated carbon atom with no bonds. -/
def isolatedC : Molecule := ⟨[⟨0, "C", []⟩]⟩

/-- A molecule with one atom whose element label matches no rule. -/
def xMol : Molecule := ⟨[⟨0, "X", []⟩]⟩

/-- Pattern: any carbon. -/
def pAnyC : Pattern := Pattern.node (some "C") none []

/-- Pattern: any hydrogen. -/
def pHyd : Pattern := Pattern.node (some "H") none []

/-- Pattern: any atom. -/
def pAny : Pattern := Pattern.node none none []

/-- Pattern: carbon with exactly 4 neighbors of element hydrogen. -/
def pC4H : Pattern := Pattern.node (some "C") (some 4) [pHyd, pHyd, pHyd, pHyd]

/-- Pattern: carbon with exactly 4 bonded neighbors, each any label. -/
def pC4Any : Pattern := Pattern.node (some "C") (some 4) [pAny, pAny, pAny, pAny]

/-- Rule: any carbon. -/
def ruleAnyC : Rule := ⟨"C_any", pAnyC, none, none, []⟩

/-- Rule: carbon bonded to exactly 4 hydrogens, overriding C_any. -/
def ruleC4H : Rule := ⟨"C_4H", pC4H, none, none, ["C_any"]⟩

/-- Rule: carbon bonded to exactly 4 hydrogens, no override declared. -/
def ruleC4HPlain : Rule := ⟨"C_4H", pC4H, none, none, []⟩

/-- Rule: any hydrogen. -/
def ruleHyd : Rule := ⟨"H_any", pHyd, none, none, []⟩

/-- Rule set with the override declared. -/
def rulesOv : List Rule := [ruleAnyC, ruleC4H, ruleHyd]

/-- Rule set without the override declared. -/
def rulesNoOv : List Rule := [ruleAnyC, ruleC4HPlain, ruleHyd]

/-- Two rules overriding each other: an override cycle. -/
def rulesCycle : List Rule :=
  [⟨"rA", pAnyC, none, none, ["rB"]⟩, ⟨"rB", pAnyC, none, none, ["rA"]⟩]

/-- A well-formed one-record forcefield document. -/
def doc1 : List RawRecord := [⟨some "r1", some pAnyC, none, none, []⟩]

theorem overrideFilterAux_subset (rules : List Rule) :
    ∀ (fuel : Nat) (cands : List String) (x : String),
      x ∈ overrideFilterAux rules fuel cands → x ∈ cands := by
  intro fuel
  induction fuel with
  | zero => intro cands x hx; simpa [overrideFilterAux] using hx
  | succ fuel ih =>
    intro cands x hx
    simp only [overrideFilterAux] at hx
    split at hx
    · exact hx
    · exact List.erase_subset _ _ (ih _ x hx)

theorem overrideFilterAux_ne_nil (rules : List Rule) :
    ∀ (fuel : Nat) (cands : List String), cands ≠ [] →
      overrideFilterAux rules fuel cands ≠ [] := by
  intro fuel
  induction fuel with
  | zero => intro cands h; simpa [overrideFilterAux] using h
  | succ fuel ih =>
    intro cands h
    simp only [overrideFilterAux]
    split
    · exact h
    · next c hc =>
      apply ih
      have hrem : removableIn rules cands c = true := List.find?_some hc
      obtain ⟨d, hd, hdc, _⟩ := by
        simpa [removableIn, List.any_eq_true, bne_iff_ne] using hrem
      exact List.ne_nil_of_mem ((List.mem_erase_of_ne hdc).mpr hd)

theorem overrideFilterAux_fixed (rules : List Rule) :
    ∀ (fuel : Nat) (cands : List String), cands.length ≤ fuel →
      findRemovable rules (overrideFilterAux rules fuel cands) = none := by
  intro fuel
  induction fuel with
  | zero =>
    intro cands h
    have hnil : cands = [] := List.eq_nil_of_length_eq_zero (Nat.le_zero.mp h)
    subst hnil
    simp [overrideFilterAux, findRemovable]
  | succ fuel ih =>
    intro cands h
    simp only [overrideFilterAux]
    split
    · next hnone => exact hnone
    · next c hc =>
      apply ih
      have hcmem : c ∈ cands := List.mem_of_find?_eq_some hc
      have hlen := List.length_erase_of_mem hcmem
      have hpos := List.length_pos_of_mem hcmem
      omega

/-- Claim C5: the set of rule names surviving override fixed-point
filtering is a subset of the original Candidates set, and is non-empty
whenever the Candidates set is non-empty. -/
theorem overrideFilter_subset_and_nonempty (rules : List Rule) (cands : List String) :
    (∀ x, x ∈ overrideFilter rules cands → x ∈ cands) ∧
    (cands ≠ [] → overrideFilter rules cands ≠ []) :=
  ⟨fun x hx => overrideFilterAux_subset rules _ cands x hx,
   fun h => overrideFilterAux_ne_nil rules _ cands h⟩

/-- Witness for claim C5 at a concrete candidate set. -/
theorem overrideFilter_subset_and_nonempty_witness :
    ("C_4H" ∈ ["C_any", "C_4H"]) ∧ overrideFilter rulesOv ["C_any", "C_4H"] ≠ [] :=
  ⟨(overrideFilter_subset_and_nonempty rulesOv ["C_any", "C_4H"]).1 "C_4H" (by decide),
   (overrideFilter_subset_and_nonempty rulesOv ["C_any", "C_4H"]).2 (by decide)⟩

/-- Claim C7: for every finite candidate set and every override relation
(cycles included), override fixed-point filtering terminates: with fuel
equal to the candidate count the iteration reaches a state where no
removal applies, and each single removal strictly shrinks the set. -/
theorem overrideFilter_terminates (rules : List Rule) (cands : List String) :
    findRemovable rules (overrideFilter rules cands) = none ∧
    (∀ c, findRemovable rules cands = some c →
      (cands.erase c).length < cands.length) := by
  constructor
  · exact overrideFilterAux_fixed rules cands.length cands (Nat.le_refl _)
  · intro c hc
    have hcmem : c ∈ cands := List.mem_of_find?_eq_some hc
    have hlen := List.length_erase_of_mem hcmem
    have hpos := List.length_pos_of_mem hcmem
    omega

/-- Witness for claim C7 on a cyclic override relation. -/
theorem overrideFilter_terminates_witness :
    findRemovable rulesCycle (overrideFilter rulesCycle ["rA", "rB"]) = none ∧
    ((["rA", "rB"] : List String).erase "rA").length <
      (["rA", "rB"] : List String).length :=
  ⟨(overrideFilter_terminates rulesCycle ["rA", "rB"]).1,
   (overrideFilter_terminates rulesCycle ["rA", "rB"]).2 "rA" (by decide)⟩

/-- Claim C1: after override fixed-point filtering of the matched
candidate rules of an atom, a unique survivor resolves the atom to that rule name,
and several survivors leave the atom unresolved with reason "ambiguous
atomtype" and the surviving names reported. -/
theorem resolveAtom_override_resolution (rules : List Rule) (m : Molecule) (aid : Nat) :
    (∀ x, overrideFilter rules (candidatesOf rules m aid) = [x] →
      resolveAtom rules m aid = AtomResult.resolved x) ∧
    (1 < (overrideFilter rules (candidatesOf rules m aid)).length →
      resolveAtom rules m aid =
        AtomResult.unresolved "ambiguous atomtype"
          (overrideFilter rules (candidatesOf rules m aid))) := by
  cases hc : candidatesOf rules m aid with
  | nil =>
    have hnil : overrideFilter rules ([] : List String) = [] := by
      simp [overrideFilter, overrideFilterAux]
    constructor
    · intro x hx
      rw [hnil] at hx
      exact absurd hx (by simp)
    · intro hlen
      rw [hnil] at hlen
      simp at hlen
  | cons c cs =>
    constructor
    · intro x hx
      simp [resolveAtom, hc, hx]
    · intro hlen
      cases hs : overrideFilter rules (c :: cs) with
      | nil => rw [hs] at hlen; simp at hlen
      | cons y ys =>
        cases ys with
        | nil => rw [hs] at hlen; simp at hlen
        | cons z zs => simp [resolveAtom, hc, hs]

/-- Witness for claim C1: the two-candidate carbon scenario of the spec, once
with the override declared and once without. -/
theorem resolveAtom_override_resolution_witness :
    resolveAtom rulesOv ch4 0 = AtomResult.resolved "C_4H" ∧
    resolveAtom rulesNoOv ch4 0 =
      AtomResult.unresolved "ambiguous atomtype"
        (overrideFilter rulesNoOv (candidatesOf rulesNoOv ch4 0)) :=
  ⟨(resolveAtom_override_resolution rulesOv ch4 0).1 "C_4H" (by decide),
   (resolveAtom_override_resolution rulesNoOv ch4 0).2 (by decide)⟩

theorem mem_failuresOf {results : List (Nat × AtomResult)} {i : Nat} {reason : String} :
    (i, reason) ∈ failuresOf results ↔
      ∃ cs, (i, AtomResult.unresolved reason cs) ∈ results := by
  constructor
  · intro h
    obtain ⟨⟨i0, r⟩, hp, hf⟩ := List.mem_filterMap.mp h
    cases r with
    | resolved n => simp at hf
    | unresolved rs cs =>
      simp at hf
      obtain ⟨h1, h2⟩ := hf
      subst h1; subst h2
      exact ⟨cs, hp⟩
  · rintro ⟨cs, h⟩
    exact List.mem_filterMap.mpr ⟨(i, AtomResult.unresolved reason cs), h, rfl⟩

theorem mem_assignmentOf {results : List (Nat × AtomResult)} {i : Nat} {nm : String} :
    (i, nm) ∈ assignmentOf results ↔ (i, AtomResult.resolved nm) ∈ results := by
  constructor
  · intro h
    obtain ⟨⟨i0, r⟩, hp, hf⟩ := List.mem_filterMap.mp h
    cases r with
    | resolved n =>
      simp at hf
      obtain ⟨h1, h2⟩ := hf
      subst h1; subst h2
      exact hp
    | unresolved rs cs => simp at hf
  · intro h
    exact List.mem_filterMap.mpr ⟨(i, AtomResult.resolved nm), h, rfl⟩

theorem mem_resolveOrder {rules : List Rule} {m : Molecule} {order : List Atom}
    {i : Nat} {r : AtomResult} :
    (i, r) ∈ resolveOrder rules m order ↔
      ∃ a ∈ order, a.id = i ∧ resolveAtom rules m a.id = r := by
  simp only [resolveOrder, List.mem_map, Prod.mk.injEq]

/-- Claim C3: an atom with empty Candidates ends unresolved with reason
"no matching atomtype"; whole-molecule typing is incomplete exactly when
some atom ends unresolved, every unresolved atom is listed with its
reason (failures are accumulated, not raised on the first bad atom), and
otherwise the returned TypeAssignment covers every atom. -/
theorem typing_failure_accumulation (rules : List Rule) (m : Molecule) (aid : Nat) :
    (candidatesOf rules m aid = [] →
      resolveAtom rules m aid = AtomResult.unresolved "no matching atomtype" []) ∧
    ((∃ fs, typeMolecule rules m = TypingResult.incomplete fs) ↔
      ∃ a ∈ m.atoms, ∃ reason cs,
        resolveAtom rules m a.id = AtomResult.unresolved reason cs) ∧
    (∀ fs, typeMolecule rules m = TypingResult.incomplete fs →
      ∀ a ∈ m.atoms, ∀ reason cs,
        resolveAtom rules m a.id = AtomResult.unresolved reason cs →
        (a.id, reason) ∈ fs) ∧
    (∀ asg, typeMolecule rules m = TypingResult.complete asg →
      ∀ a ∈ m.atoms, ∃ nm, (a.id, nm) ∈ asg) := by
  refine ⟨fun h => by simp [resolveAtom, h], ?_, ?_, ?_⟩
  · constructor
    · rintro ⟨fs, hfs⟩
      rw [typeMolecule, typeMoleculeOrder] at hfs
      cases hf : failuresOf (resolveOrder rules m m.atoms) with
      | nil => rw [hf] at hfs; simp at hfs
      | cons f fs0 =>
        have hmem : f ∈ failuresOf (resolveOrder rules m m.atoms) := by
          rw [hf]; exact List.mem_cons_self f fs0
        obtain ⟨i, reason⟩ := f
        obtain ⟨cs, hres⟩ := mem_failuresOf.mp hmem
        obtain ⟨a, ha, hid, hr⟩ := mem_resolveOrder.mp hres
        exact ⟨a, ha, reason, cs, hr⟩
    · rintro ⟨a, ha, reason, cs, hr⟩
      have hres : (a.id, AtomResult.unresolved reason cs) ∈
          resolveOrder rules m m.atoms :=
        mem_resolveOrder.mpr ⟨a, ha, rfl, hr⟩
      have hmem : (a.id, reason) ∈ failuresOf (resolveOrder rules m m.atoms) :=
        mem_failuresOf.mpr ⟨cs, hres⟩
      rw [typeMolecule, typeMoleculeOrder]
      cases hf : failuresOf (resolveOrder rules m m.atoms) with
      | nil => rw [hf] at hmem; cases hmem
      | cons f fs0 => exact ⟨f :: fs0, rfl⟩
  · intro fs hfs a ha reason cs hr
    rw [typeMolecule, typeMoleculeOrder] at hfs
    have hmem : (a.id, reason) ∈ failuresOf (resolveOrder rules m m.atoms) :=
      mem_failuresOf.mpr ⟨cs, mem_resolveOrder.mpr ⟨a, ha, rfl, hr⟩⟩
    cases hf : failuresOf (resolveOrder rules m m.atoms) with
    | nil => rw [hf] at hmem; cases hmem
    | cons f fs0 =>
      rw [hf] at hfs
      simp only [TypingResult.incomplete.injEq] at hfs
      rw [← hfs, ← hf]
      exact hmem
  · intro asg hasg a ha
    rw [typeMolecule, typeMoleculeOrder] at hasg
    cases hf : failuresOf (resolveOrder rules m m.atoms) with
    | cons f fs0 => rw [hf] at hasg; simp at hasg
    | nil =>
      rw [hf] at hasg
      simp only [TypingResult.complete.injEq] at hasg
      have hres : (a.id, resolveAtom rules m a.id) ∈ resolveOrder rules m m.atoms :=
        mem_resolveOrder.mpr ⟨a, ha, rfl, rfl⟩
      cases hr : resolveAtom rules m a.id with
      | resolved nm =>
        refine ⟨nm, ?_⟩
        rw [← hasg]
        exact mem_assignmentOf.mpr (by rw [← hr]; exact hres)
      | unresolved reason cs =>
        have hmem : (a.id, reason) ∈ failuresOf (resolveOrder rules m m.atoms) :=
          mem_failuresOf.mpr ⟨cs, by rw [← hr]; exact hres⟩
        rw [hf] at hmem
        cases hmem

/-- Witness for claim C3 on a one-atom molecule matching no rule. -/
theorem typing_failure_accumulation_witness :
    resolveAtom rulesOv xMol 0 = AtomResult.unresolved "no matching atomtype" [] ∧
    (0, "no matching atomtype") ∈ [(0, "no matching atomtype")] :=
  ⟨(typing_failure_accumulation rulesOv xMol 0).1 (by decide),
   (typing_failure_accumulation rulesOv xMol 0).2.2.1
     [(0, "no matching atomtype")] (by decide) ⟨0, "X", []⟩ (by decide)
     "no matching atomtype" [] (by decide)⟩

/-- Claim C6: the Typing Resolver output is order-independent: permuting
the atom evaluation order yields the same constructor and a permutation
of the same assignment (the same TypeAssignment as a mapping). -/
theorem typing_order_independent (rules : List Rule) (m : Molecule)
    (o1 o2 : List Atom) (hperm : o1.Perm o2) :
    resultsPerm (typeMoleculeOrder rules m o1) (typeMoleculeOrder rules m o2) := by
  have hres : (resolveOrder rules m o1).Perm (resolveOrder rules m o2) :=
    hperm.map _
  have hfail : (failuresOf (resolveOrder rules m o1)).Perm
      (failuresOf (resolveOrder rules m o2)) := hres.filterMap _
  have hasg : (assignmentOf (resolveOrder rules m o1)).Perm
      (assignmentOf (resolveOrder rules m o2)) := hres.filterMap _
  rw [typeMoleculeOrder, typeMoleculeOrder]
  cases h1 : failuresOf (resolveOrder rules m o1) with
  | nil =>
    have h2 : failuresOf (resolveOrder rules m o2) = [] := by
      rw [h1] at hfail
      exact hfail.symm.eq_nil
    rw [h2]
    exact hasg
  | cons f fs =>
    rw [h1] at hfail
    cases h2 : failuresOf (resolveOrder rules m o2) with
    | nil => rw [h2] at hfail; exact absurd hfail.eq_nil (by simp)
    | cons g gs => rw [h2] at hfail; exact hfail

/-- Witness for claim C6: methane typed in both atom orders. -/
theorem typing_order_independent_witness :
    resultsPerm (typeMoleculeOrder rulesOv ch4 ch4.atoms)
      (typeMoleculeOrder rulesOv ch4 ch4.atoms.reverse) :=
  typing_order_independent rulesOv ch4 ch4.atoms ch4.atoms.reverse
    (List.reverse_perm ch4.atoms).symm

theorem recordToRule_ok {rc : RawRecord} {r : Rule} (h : recordToRule rc = Except.ok r) :
    rc.name = some r.name ∧ rc.pdef = some r.pattern ∧ rc.overrides = r.overrides := by
  cases hn : rc.name with
  | none => simp [recordToRule, hn] at h
  | some n =>
    cases hp : rc.pdef with
    | none => simp [recordToRule, hn, hp] at h
    | some p =>
      simp only [recordToRule, hn, hp, Except.ok.injEq] at h
      subst h
      exact ⟨rfl, rfl, rfl⟩

theorem loadAll_error_iff (doc : List RawRecord) :
    loadAll doc = Except.error LoadError.malformedDocument ↔
      ∃ rc ∈ doc, rc.name = none ∨ rc.pdef = none := by
  induction doc with
  | nil => simp [loadAll]
  | cons rc rcs ih =>
    simp only [loadAll]
    cases hr : recordToRule rc with
    | error e =>
      cases e
      have hmiss : rc.name = none ∨ rc.pdef = none := by
        cases hn : rc.name with
        | none => exact Or.inl rfl
        | some n =>
          cases hp : rc.pdef with
          | none => exact Or.inr rfl
          | some p => simp [recordToRule, hn, hp] at hr
      exact iff_of_true rfl ⟨rc, List.mem_cons_self rc rcs, hmiss⟩
    | ok rule =>
      have hok : ¬ (rc.name = none ∨ rc.pdef = none) := by
        obtain ⟨hn, hp, _⟩ := recordToRule_ok hr
        simp [hn, hp]
      cases hrest : loadAll rcs with
      | error e =>
        cases e
        obtain ⟨rc0, hrc0, hmiss0⟩ := ih.mp hrest
        exact iff_of_true rfl ⟨rc0, List.mem_cons_of_mem rc hrc0, hmiss0⟩
      | ok rules =>
        apply iff_of_false (by simp)
        rintro ⟨rc0, hrc0, hmiss0⟩
        rcases List.mem_cons.mp hrc0 with rfl | hrc0
        · exact hok hmiss0
        · have := ih.mpr ⟨rc0, hrc0, hmiss0⟩
          rw [hrest] at this
          exact absurd this (by simp)

theorem loadAll_ok_names (doc : List RawRecord) :
    ∀ rules, loadAll doc = Except.ok rules →
      rules.map Rule.name = doc.filterMap RawRecord.name ∧
      (∀ r ∈ rules, ∃ rc ∈ doc, rc.name = some r.name ∧ rc.pdef = some r.pattern ∧
        rc.overrides = r.overrides) ∧
      (∀ rc ∈ doc, ∃ r ∈ rules, rc.name = some r.name ∧ rc.overrides = r.overrides) := by
  induction doc with
  | nil =>
    intro rules h
    simp only [loadAll, Except.ok.injEq] at h
    subst h
    simp
  | cons rc rcs ih =>
    intro rules h
    simp only [loadAll] at h
    cases hr : recordToRule rc with
    | error e => rw [hr] at h; exact absurd h (by simp)
    | ok rule =>
      rw [hr] at h
      cases hrest : loadAll rcs with
      | error e => rw [hrest] at h; exact absurd h (by simp)
      | ok rules0 =>
        rw [hrest] at h
        simp only [Except.ok.injEq] at h
        subst h
        obtain ⟨hn, hp, hov⟩ := recordToRule_ok hr
        obtain ⟨ihn, ihfwd, ihbwd⟩ := ih rules0 hrest
        refine ⟨?_, ?_, ?_⟩
        · simp [List.filterMap_cons, hn, ihn]
        · intro r hr0
          rcases List.mem_cons.mp hr0 with rfl | hr0
          · exact ⟨rc, List.mem_cons_self rc rcs, hn, hp, hov⟩
          · obtain ⟨rc0, hrc0, h1, h2, h3⟩ := ihfwd r hr0
            exact ⟨rc0, List.mem_cons_of_mem rc hrc0, h1, h2, h3⟩
        · intro rc0 hrc0
          rcases List.mem_cons.mp hrc0 with rfl | hrc0
          · exact ⟨rule, List.mem_cons_self rule rules0, hn, hov⟩
          · obtain ⟨r0, hr0, h1, h2⟩ := ihbwd rc0 hrc0
            exact ⟨r0, List.mem_cons_of_mem rule hr0, h1, h2⟩

theorem danglingOverride_iff (rules : List Rule) :
    danglingOverride rules = true ↔
      ∃ r ∈ rules, ∃ o ∈ r.overrides, ¬ o ∈ rules.map Rule.name := by
  simp [danglingOverride, List.any_eq_true]

/-- Claim C4: the Rule Loader fails with MalformedDocument exactly when a
record is missing a name or a pattern, two records share a name, or an
override references a name not present after the full document is
loaded; otherwise it returns the rules keyed by their (distinct) names;
a malformed record aborts the load whatever follows it.  (The parse is a
pure function by construction of the embedding.) -/
theorem loadRules_malformed_iff (doc : List RawRecord) :
    (loadRules doc = Except.error LoadError.malformedDocument ↔
      (∃ rc ∈ doc, rc.name = none ∨ rc.pdef = none) ∨
      ¬ (doc.filterMap RawRecord.name).Nodup ∨
      (∃ rc ∈ doc, ∃ o ∈ rc.overrides, ¬ o ∈ doc.filterMap RawRecord.name)) ∧
    (∀ rules, loadRules doc = Except.ok rules →
      (rules.map Rule.name).Nodup ∧
      ∀ r ∈ rules, ∃ rc ∈ doc, rc.name = some r.name ∧ rc.pdef = some r.pattern) ∧
    (∀ rc rest, rc.name = none ∨ rc.pdef = none →
      loadRules (rc :: rest) = Except.error LoadError.malformedDocument) := by
  have hfast : ∀ (rc : RawRecord) (rest : List RawRecord),
      rc.name = none ∨ rc.pdef = none →
      loadRules (rc :: rest) = Except.error LoadError.malformedDocument := by
    intro rc rest hmiss
    have hla : loadAll (rc :: rest) = Except.error LoadError.malformedDocument :=
      (loadAll_error_iff (rc :: rest)).mpr ⟨rc, List.mem_cons_self rc rest, hmiss⟩
    simp [loadRules, hla]
  cases hl : loadAll doc with
  | error e =>
    cases e
    have hload : loadRules doc = Except.error LoadError.malformedDocument := by
      simp [loadRules, hl]
    refine ⟨iff_of_true hload (Or.inl ((loadAll_error_iff doc).mp hl)), ?_, hfast⟩
    intro rules h
    rw [hload] at h
    exact absurd h (by simp)
  | ok rules0 =>
    obtain ⟨hnames, hfwd, hbwd⟩ := loadAll_ok_names doc rules0 hl
    have hnomiss : ¬ ∃ rc ∈ doc, rc.name = none ∨ rc.pdef = none := by
      intro hmiss
      have := (loadAll_error_iff doc).mpr hmiss
      rw [hl] at this
      exact absurd this (by simp)
    by_cases hnd : (rules0.map Rule.name).Nodup
    · cases hdg : danglingOverride rules0 with
      | true =>
        have hload : loadRules doc = Except.error LoadError.malformedDocument := by
          simp [loadRules, hl, hnd, hdg]
        obtain ⟨r, hrin, o, hoin, hnotin⟩ := (danglingOverride_iff rules0).mp hdg
        obtain ⟨rc, hrc, hn, hp, hov⟩ := hfwd r hrin
        refine ⟨iff_of_true hload (Or.inr (Or.inr ⟨rc, hrc, o, ?_, ?_⟩)), ?_, hfast⟩
        · rw [hov]; exact hoin
        · rw [← hnames]; exact hnotin
        · intro rules h; rw [hload] at h; exact absurd h (by simp)
      | false =>
        have hload : loadRules doc = Except.ok rules0 := by
          simp [loadRules, hl, hnd, hdg]
        refine ⟨?_, ?_, hfast⟩
        · apply iff_of_false
          · rw [hload]; simp
          · rintro (hmiss | hdup | ⟨rc, hrc, o, ho, hnotin⟩)
            · exact hnomiss hmiss
            · rw [← hnames] at hdup; exact hdup hnd
            · obtain ⟨r, hrin, hn, hov⟩ := hbwd rc hrc
              have hdg2 : danglingOverride rules0 = true :=
                (danglingOverride_iff rules0).mpr
                  ⟨r, hrin, o, by rw [← hov]; exact ho, by rw [hnames]; exact hnotin⟩
              rw [hdg] at hdg2
              exact absurd hdg2 (by simp)
        · intro rules h
          rw [hload] at h
          have heq : rules = rules0 := by simpa using h.symm
          subst heq
          refine ⟨hnd, fun r hrr => ?_⟩
          obtain ⟨rc, hrc, hn, hp, _⟩ := hfwd r hrr
          exact ⟨rc, hrc, hn, hp⟩
    · have hload : loadRules doc = Except.error LoadError.malformedDocument := by
        simp [loadRules, hl, hnd]
      refine ⟨iff_of_true hload (Or.inr (Or.inl ?_)), ?_, hfast⟩
      · rw [← hnames]; exact hnd
      · intro rules h; rw [hload] at h; exact absurd h (by simp)

/-- Witness for claim C4: a well-formed document loads with the expected
rule, and a record missing its name aborts the load immediately. -/
theorem loadRules_malformed_iff_witness :
    ((([⟨"r1", pAnyC, none, none, []⟩] : List Rule).map Rule.name).Nodup ∧
      ∀ r ∈ ([⟨"r1", pAnyC, none, none, []⟩] : List Rule), ∃ rc ∈ doc1,
        rc.name = some r.name ∧ rc.pdef = some r.pattern) ∧
    loadRules (⟨none, some pAnyC, none, none, []⟩ :: doc1) =
      Except.error LoadError.malformedDocument :=
  ⟨(loadRules_malformed_iff doc1).2.1 [⟨"r1", pAnyC, none, none, []⟩] rfl,
   (loadRules_malformed_iff (⟨none, some pAnyC, none, none, []⟩ :: doc1)).2.2
     ⟨none, some pAnyC, none, none, []⟩ doc1 (Or.inl rfl)⟩

/-- Claim C9: the Butane constructor performs exactly the construction
sequence of the Alkane constructor at chain length 4: the built states
agree in every particle, bond, label and recorded operation. -/
theorem butane_is_alkane_four : butaneBuild = alkaneBuild 4 := by decide

/-- Claim C10: the bond-based CH2 compound holds exactly three particles
(one C and two H) and exactly two bonds, each from the carbon to a
distinct hydrogen; no hydrogen-to-hydrogen bond exists. -/
theorem ch2_bond_structure :
    ch2BondBased.parts.length = 3 ∧
    (ch2BondBased.parts.countP (fun p => p.2 == "C")) = 1 ∧
    (ch2BondBased.parts.countP (fun p => p.2 == "H")) = 2 ∧
    ch2BondBased.bonds.length = 2 ∧
    ch2BondBased.bonds.all
      (fun b => (mbName ch2BondBased b.1 == some "C") &&
        (mbName ch2BondBased b.2 == some "H")) = true ∧
    ch2BondBased.bonds.all
      (fun b => !((mbName ch2BondBased b.1 == some "H") &&
        (mbName ch2BondBased b.2 == some "H"))) = true ∧
    (ch2BondBased.bonds.map Prod.snd).Nodup := by decide

theorem Assign.root_mem_atoms (t : Assign) : t.root ∈ t.atoms := by
  cases t with
  | node a ts => simp [Assign.root, Assign.atoms]

theorem mem_atomsList_of_mem {t : Assign} {ts : List Assign} (ht : t ∈ ts)
    {x : Nat} (hx : x ∈ t.atoms) : x ∈ atomsList ts := by
  induction ts with
  | nil => cases ht
  | cons t0 ts ih =>
    rcases List.mem_cons.mp ht with rfl | ht
    · simp only [atomsList, List.mem_append]
      exact Or.inl hx
    · simp only [atomsList, List.mem_append]
      exact Or.inr (ih ht)

theorem matchKids_sound (m : Molecule) :
    ∀ (nbrs : List Nat) (cs : List Pattern) (used : List Nat),
      ∀ us ∈ matchKids m nbrs cs used,
        ∃ ts, assignOkList m nbrs cs ts = true ∧
          us.Perm (atomsList ts ++ used) ∧ (used.Nodup → us.Nodup) := by
  refine matchKids.induct m
    (fun p aid used => ∀ us ∈ matchSub m p aid used,
      ∃ t, assignOk m p t = true ∧ t.root = aid ∧
        us.Perm (Assign.atoms t ++ used) ∧
        (used.Nodup → ¬ aid ∈ used → us.Nodup))
    (fun nbrs cs used => ∀ us ∈ matchKids m nbrs cs used,
      ∃ ts, assignOkList m nbrs cs ts = true ∧
        us.Perm (atomsList ts ++ used) ∧ (used.Nodup → us.Nodup))
    ?_ ?_ ?_ ?_ ?_
  · intro lbl deg children aid used hfind us hus
    simp [matchSub, hfind] at hus
  · intro lbl deg children aid used a hfind hok ih us hus
    simp only [matchSub, hfind] at hus
    rw [if_pos hok] at hus
    obtain ⟨ts, hokl, hperm, hnd⟩ := ih us hus
    refine ⟨Assign.node aid ts, ?_, rfl, ?_, ?_⟩
    · simp [assignOk, hfind, hok, hokl]
    · exact hperm.trans List.perm_middle
    · exact fun h1 h2 => hnd (List.nodup_cons.mpr ⟨h2, h1⟩)
  · intro lbl deg children aid used a hfind hnok us hus
    simp only [matchSub, hfind] at hus
    rw [if_neg hnok] at hus
    cases hus
  · intro nbrs used us hus
    simp only [matchKids, List.mem_singleton] at hus
    subst hus
    exact ⟨[], rfl, by simp [atomsList], fun h => h⟩
  · intro nbrs c cs used ih1 ih2 us hus
    simp only [matchKids, List.mem_flatMap, List.mem_filter,
      decide_eq_true_eq] at hus
    obtain ⟨n, ⟨hn_mem, hn_used⟩, us2, hus2, hus⟩ := hus
    obtain ⟨t, hok_t, hroot, hperm2, hnd2⟩ := ih1 n us2 hus2
    obtain ⟨ts, hokl, hperm, hnd⟩ := ih2 us2 us hus
    have base : (atomsList ts ++ us2).Perm
        ((Assign.atoms t ++ atomsList ts) ++ used) := by
      have b1 : (atomsList ts ++ us2).Perm
          ((atomsList ts ++ Assign.atoms t) ++ used) := by
        rw [List.append_assoc]
        exact hperm2.append_left _
      exact b1.trans (List.perm_append_comm.append_right used)
    refine ⟨t :: ts, ?_, ?_, ?_⟩
    · simp [assignOkList, hok_t, hokl, hroot, hn_mem]
    · exact hperm.trans base
    · intro hu
      exact hnd (hnd2 hu (hroot ▸ hn_used))

theorem matchSub_sound (m : Molecule) (p : Pattern) (aid : Nat) (used : List Nat) :
    ∀ us ∈ matchSub m p aid used,
      ∃ t, assignOk m p t = true ∧ t.root = aid ∧
        us.Perm (Assign.atoms t ++ used) ∧
        (used.Nodup → ¬ aid ∈ used → us.Nodup) := by
  cases p with
  | node lbl deg children =>
    intro us hus
    cases hfind : molFind m aid with
    | none => simp [matchSub, hfind] at hus
    | some a =>
      by_cases hok : nodeOk a lbl deg = true
      · simp only [matchSub, hfind] at hus
        rw [if_pos hok] at hus
        obtain ⟨ts, hokl, hperm, hnd⟩ :=
          matchKids_sound m a.neighbors children (aid :: used) us hus
        refine ⟨Assign.node aid ts, ?_, rfl, ?_, ?_⟩
        · simp [assignOk, hfind, hok, hokl]
        · exact hperm.trans List.perm_middle
        · exact fun h1 h2 => hnd (List.nodup_cons.mpr ⟨h2, h1⟩)
      · simp only [matchSub, hfind] at hus
        rw [if_neg hok] at hus
        cases hus

theorem matchKids_complete (m : Molecule) :
    ∀ (nbrs : List Nat) (cs : List Pattern) (used : List Nat),
      ∀ ts, assignOkList m nbrs cs ts = true →
        (atomsList ts ++ used).Nodup →
        ∃ us ∈ matchKids m nbrs cs used, us.Perm (atomsList ts ++ used) := by
  refine matchKids.induct m
    (fun p aid used => ∀ t, assignOk m p t = true → t.root = aid →
      (Assign.atoms t ++ used).Nodup →
      ∃ us ∈ matchSub m p aid used, us.Perm (Assign.atoms t ++ used))
    (fun nbrs cs used => ∀ ts, assignOkList m nbrs cs ts = true →
      (atomsList ts ++ used).Nodup →
      ∃ us ∈ matchKids m nbrs cs used, us.Perm (atomsList ts ++ used))
    ?_ ?_ ?_ ?_ ?_
  · intro lbl deg children aid used hfind t hokt hroot hnd
    cases t with
    | node a0 ts =>
      have ha : a0 = aid := hroot
      subst ha
      simp [assignOk, hfind] at hokt
  · intro lbl deg children aid used a hfind hok ih t hokt hroot hnd
    cases t with
    | node a0 ts =>
      have ha : a0 = aid := hroot
      subst ha
      simp only [assignOk, hfind, Bool.and_eq_true] at hokt
      obtain ⟨-, hokl⟩ := hokt
      have hnd2 : (atomsList ts ++ (a0 :: used)).Nodup :=
        (List.perm_middle.nodup_iff).mpr hnd
      obtain ⟨us, hus, hperm⟩ := ih ts hokl hnd2
      refine ⟨us, ?_, hperm.trans List.perm_middle⟩
      simp only [matchSub, hfind]
      rw [if_pos hok]
      exact hus
  · intro lbl deg children aid used a hfind hnok t hokt hroot hnd
    cases t with
    | node a0 ts =>
      have ha : a0 = aid := hroot
      subst ha
      simp only [assignOk, hfind, Bool.and_eq_true] at hokt
      exact absurd hokt.1 hnok
  · intro nbrs used ts hokl hnd
    cases ts with
    | nil =>
      refine ⟨used, ?_, ?_⟩
      · simp [matchKids]
      · simp [atomsList]
    | cons t ts => simp [assignOkList] at hokl
  · intro nbrs c cs used ih1 ih2 ts hokl hnd
    cases ts with
    | nil => simp [assignOkList] at hokl
    | cons t ts =>
      simp only [assignOkList, Bool.and_eq_true, decide_eq_true_eq] at hokl
      obtain ⟨⟨hrootmem, hok_t⟩, hokl2⟩ := hokl
      have hnd_shift : (Assign.atoms t ++ (atomsList ts ++ used)).Nodup := by
        have he : atomsList (t :: ts) ++ used =
            Assign.atoms t ++ (atomsList ts ++ used) := by
          simp [atomsList, List.append_assoc]
        rw [← he]
        exact hnd
      have hsplit := List.nodup_append.mp hnd_shift
      have hnd_used : used.Nodup :=
        (List.nodup_append.mp hsplit.2.1).2.1
      have hdisj_used : Assign.atoms t |>.Disjoint used := by
        intro x hx hx2
        exact hsplit.2.2 hx (List.mem_append.mpr (Or.inr hx2))
      have hnd_a : (Assign.atoms t ++ used).Nodup :=
        List.nodup_append.mpr ⟨hsplit.1, hnd_used, hdisj_used⟩
      have hroot_used : ¬ t.root ∈ used :=
        fun h => hdisj_used (Assign.root_mem_atoms t) h
      obtain ⟨us2, hus2, hperm2⟩ := ih1 t.root t hok_t rfl hnd_a
      have base : (atomsList ts ++ us2).Perm
          ((Assign.atoms t ++ atomsList ts) ++ used) := by
        have b1 : (atomsList ts ++ us2).Perm
            ((atomsList ts ++ Assign.atoms t) ++ used) := by
          rw [List.append_assoc]
          exact hperm2.append_left _
        exact b1.trans (List.perm_append_comm.append_right used)
      have hnd_rec : (atomsList ts ++ us2).Nodup := by
        apply (base.nodup_iff).mpr
        exact hnd
      obtain ⟨us, hus, hperm⟩ := ih2 us2 ts hokl2 hnd_rec
      refine ⟨us, ?_, hperm.trans base⟩
      simp only [matchKids, List.mem_flatMap, List.mem_filter, decide_eq_true_eq]
      exact ⟨t.root, ⟨hrootmem, hroot_used⟩, us2, hus2, hus⟩

theorem matchSub_complete (m : Molecule) (p : Pattern) (used : List Nat)
    (t : Assign) (hokt : assignOk m p t = true)
    (hnd : (Assign.atoms t ++ used).Nodup) :
    ∃ us ∈ matchSub m p t.root used, us.Perm (Assign.atoms t ++ used) := by
  cases p with
  | node lbl deg children =>
    cases t with
    | node a0 ts =>
      simp only [Assign.root]
      cases hfind : molFind m a0 with
      | none => simp [assignOk, hfind] at hokt
      | some a =>
        simp only [assignOk, hfind, Bool.and_eq_true] at hokt
        obtain ⟨hok, hokl⟩ := hokt
        have hnd2 : (atomsList ts ++ (a0 :: used)).Nodup :=
          (List.perm_middle.nodup_iff).mpr hnd
        obtain ⟨us, hus, hperm⟩ :=
          matchKids_complete m a.neighbors children (a0 :: used) ts hokl hnd2
        refine ⟨us, ?_, hperm.trans List.perm_middle⟩
        simp only [matchSub, hfind]
        rw [if_pos hok]
        exact hus

theorem smatch_iff_assign (m : Molecule) (p : Pattern) (anchor : Nat) :
    smatch m p anchor = true ↔
      ∃ t, assignOk m p t = true ∧ t.root = anchor ∧ t.atoms.Nodup := by
  constructor
  · intro h
    obtain ⟨us, hus⟩ : ∃ us, us ∈ matchSub m p anchor [] := by
      cases hm : matchSub m p anchor [] with
      | nil => simp [smatch, hm] at h
      | cons u us => exact ⟨u, List.mem_cons_self u us⟩
    obtain ⟨t, hok, hroot, hperm, hnd⟩ := matchSub_sound m p anchor [] us hus
    refine ⟨t, hok, hroot, ?_⟩
    have h1 : us.Nodup := hnd List.nodup_nil (by simp)
    have h2 := (hperm.nodup_iff).mp h1
    simpa using h2
  · rintro ⟨t, hok, hroot, hnd⟩
    subst hroot
    obtain ⟨us, hus, -⟩ := matchSub_complete m p [] t hok (by simpa using hnd)
    cases hm : matchSub m p t.root [] with
    | nil => rw [hm] at hus; cases hus
    | cons u us0 => simp [smatch, hm]

theorem assignOkList_roots (m : Molecule) (nbrs : List Nat) :
    ∀ (cs : List Pattern) (ts : List Assign),
      assignOkList m nbrs cs ts = true →
      ts.length = cs.length ∧ ∀ t ∈ ts, t.root ∈ nbrs := by
  intro cs
  induction cs with
  | nil =>
    intro ts h
    cases ts with
    | nil => exact ⟨rfl, by simp⟩
    | cons t ts => simp [assignOkList] at h
  | cons c cs ih =>
    intro ts h
    cases ts with
    | nil => simp [assignOkList] at h
    | cons t ts =>
      simp only [assignOkList, Bool.and_eq_true, decide_eq_true_eq] at h
      obtain ⟨⟨h1, h2⟩, h3⟩ := h
      obtain ⟨hlen, hmem⟩ := ih ts h3
      refine ⟨by simp [hlen], ?_⟩
      intro t0 ht0
      rcases List.mem_cons.mp ht0 with rfl | ht0
      · exact h1
      · exact hmem t0 ht0

theorem roots_nodup {ts : List Assign} (h : (atomsList ts).Nodup) :
    (ts.map Assign.root).Nodup := by
  induction ts with
  | nil => simp
  | cons t ts ih =>
    simp only [atomsList, List.nodup_append] at h
    obtain ⟨h1, h2, h3⟩ := h
    simp only [List.map_cons, List.nodup_cons]
    refine ⟨?_, ih h2⟩
    intro hmem
    obtain ⟨t0, ht0, hroot⟩ := List.mem_map.mp hmem
    exact h3 (Assign.root_mem_atoms t)
      (hroot ▸ mem_atomsList_of_mem ht0 (Assign.root_mem_atoms t0))

/-- Claim C2: the Pattern Matcher returns true exactly when some
injective assignment of the pattern-tree nodes to distinct molecule
atoms exists, rooted at the anchor, with every child assigned to a
bonded neighbor of the parent atom and the per-node element-label and
degree constraints satisfied; in particular a carbon bonded to four
distinct hydrogens matches the pattern carbon with exactly four
hydrogen neighbors. -/
theorem pattern_matcher_existential (m : Molecule) (p : Pattern) (anchor : Nat) :
    (smatch m p anchor = true ↔
      ∃ t, assignOk m p t = true ∧ t.root = anchor ∧ t.atoms.Nodup) ∧
    smatch ch4 pC4H 0 = true :=
  ⟨smatch_iff_assign m p anchor, by decide⟩

/-- Claim C8: an anchor atom with fewer bonded neighbors than the
pattern root requires never matches: a root degree constraint above the
neighbor count fails, as does a root with more child sub-patterns than
the anchor has neighbors; in particular an isolated carbon does not
match the pattern carbon with exactly four neighbors of any label. -/
theorem matcher_insufficient_neighbors (m : Molecule) (anchor : Nat) (a : Atom)
    (lbl : Option String) (deg : Option Nat) (d : Nat) (children : List Pattern)
    (hfind : molFind m anchor = some a) :
    (a.neighbors.length < d →
      smatch m (Pattern.node lbl (some d) children) anchor = false) ∧
    (a.neighbors.length < children.length →
      smatch m (Pattern.node lbl deg children) anchor = false) ∧
    smatch isolatedC pC4Any 0 = false := by
  refine ⟨?_, ?_, by decide⟩
  · intro hlt
    have h2 : (a.neighbors.length == d) = false :=
      beq_eq_false_iff_ne.mpr (Nat.ne_of_lt hlt)
    have hnok : nodeOk a lbl (some d) = false := by
      simp [nodeOk, h2]
    simp [smatch, matchSub, hfind, hnok]
  · intro hlt
    cases hsm : smatch m (Pattern.node lbl deg children) anchor with
    | false => rfl
    | true =>
      exfalso
      obtain ⟨t, hok, hroot, hnd⟩ := (smatch_iff_assign m _ anchor).mp hsm
      cases t with
      | node a0 ts =>
        have ha : a0 = anchor := hroot
        subst ha
        simp only [assignOk, hfind, Bool.and_eq_true] at hok
        obtain ⟨-, hokl⟩ := hok
        obtain ⟨hlen, hmem⟩ := assignOkList_roots m a.neighbors children ts hokl
        have hnd2 : (atomsList ts).Nodup := by
          simp only [Assign.atoms, List.nodup_cons] at hnd
          exact hnd.2
        have hroots_nd := roots_nodup hnd2
        have hcard1 : (ts.map Assign.root).toFinset.card = ts.length := by
          rw [List.toFinset_card_of_nodup hroots_nd, List.length_map]
        have hsub : (ts.map Assign.root).toFinset ⊆ a.neighbors.toFinset := by
          intro x hx
          rw [List.mem_toFinset] at hx ⊢
          obtain ⟨t0, ht0, rfl⟩ := List.mem_map.mp hx
          exact hmem t0 ht0
        have hcard2 := Finset.card_le_card hsub
        have hcard3 := List.toFinset_card_le a.neighbors
        omega

/-- Witness for claim C8 at the isolated carbon. -/
theorem matcher_insufficient_neighbors_witness :
    smatch isolatedC
      (Pattern.node (some "C") (some 4) [pAny, pAny, pAny, pAny]) 0 = false :=
  (matcher_insufficient_neighbors isolatedC 0 ⟨0, "C", []⟩ (some "C") none 4
    [pAny, pAny, pAny, pAny] (by decide)).1 (by decide)


